import Mathlib

/-!
Verification of the reservation/event core of `app.py` (a Streamlit
reservation app for a live-music venue).  The Python source is shallowly
embedded: SQL tables become lists of records, the `run_query` entry point
becomes a function parameterised by an abstract backend executor, session
state mutations become pure state-transition functions, and the calendar
grid built from `calendar.Calendar(0).monthdayscalendar` is reproduced
from the CPython `calendar`/`datetime` algorithms it calls.
-/

namespace OneOnceOver

/-! ### Placeholder translation (`run_query`, app.py lines 41-44)

`query.replace('%s', '?')` (SQLite mode) and `query.replace('?', '%s')`
(PostgreSQL mode).  Python `str.replace` scans left to right replacing
non-overlapping occurrences, which the recursions below reproduce on
`List Char`. -/

/-- Embeds `query.replace('%s', '?')`: leftmost non-overlapping replacement of the
two-character pattern `%s` by `?`. -/
def replacePSwithQ : List Char → List Char
  | [] => []
  | [c] => [c]
  | c1 :: c2 :: rest =>
    if c1 = '%' then
      if c2 = 's' then '?' :: replacePSwithQ rest
      else c1 :: replacePSwithQ (c2 :: rest)
    else c1 :: replacePSwithQ (c2 :: rest)

/-- Embeds `query.replace('?', '%s')`: every `?` character becomes the two
characters `%s`. -/
def replaceQwithPS : List Char → List Char
  | [] => []
  | c :: rest => (if c = '?' then ['%', 's'] else [c]) ++ replaceQwithPS rest

/-- Decides whether the string contains an occurrence of the substring
`%s` (a `%` immediately followed by an `s`). -/
def hasPS : List Char → Bool
  | [] => false
  | [_] => false
  | c1 :: c2 :: rest => (c1 = '%' && c2 = 's') || hasPS (c2 :: rest)

/-- The placeholder rewriting done at the top of `run_query`:
SQLite mode rewrites `%s` to `?`, PostgreSQL mode rewrites `?` to `%s`. -/
def translateQuery (useExternalDb : Bool) (q : List Char) : List Char :=
  if useExternalDb then replaceQwithPS q else replacePSwithQ q

/-! ### `run_query` outcome (app.py lines 38-65)

Rows are abstract records; the backend (`cur.execute` + `fetchall`) is an
oracle returning either rows or an exception message.  `st.error` is
modelled by the `errorNotice` field, `conn.commit()` by the `committed`
flag, and the Python return value (`None` on a committed mutation) by
`Option (List Row)`. -/

abbrev Row := List String

structure RunOutcome where
  retval : Option (List Row)
  errorNotice : Option String
  committed : Bool
deriving Repr, DecidableEq

/-- Shallow embedding of `run_query(query, params, commit)`.  The
placeholder translation happens before the `try` block; any exception
raised by execution is caught, reported via `st.error`, and turned into
an empty result list. -/
def run_query (useExternalDb : Bool) (exec : List Char → Except String (List Row))
    (q : List Char) (commit : Bool) : RunOutcome :=
  let q' := translateQuery useExternalDb q
  match exec q' with
  | .error e =>
      { retval := some [], errorNotice := some ("DBエラーだぜ: " ++ e), committed := false }
  | .ok rows =>
      if commit then { retval := none, errorNotice := none, committed := true }
      else { retval := some rows, errorNotice := none, committed := false }

/-! ### Database state model

The two tables the claims touch, with `AUTOINCREMENT`/`SERIAL` surrogate
keys modelled by explicit counters. -/

structure EventRow where
  id : Nat
  date : String
  title : String
  description : String
  open_time : String
  start_time : String
  price : String
  location : String
  image_path : String
deriving Repr, DecidableEq

structure ResRow where
  id : Nat
  event_id : Nat
  user_id : Option Nat
  name : String
  people : Nat
  email : String
  status : String
deriving Repr, DecidableEq

structure DB where
  events : List EventRow
  reservations : List ResRow
  nextEventId : Nat
  nextResId : Nat
deriving Repr, DecidableEq

/-- Embeds `INSERT INTO events (date, title, description, open_time,
start_time, price, location, image_path) VALUES (?,...)` — the add_live form submit
(app.py lines 242-245). -/
def insertEvent (db : DB) (date title description open_time start_time price location image_path : String) : DB :=
  { db with
    events := db.events ++
      [⟨db.nextEventId, date, title, description, open_time, start_time, price, location, image_path⟩],
    nextEventId := db.nextEventId + 1 }

/-- Embeds `DELETE FROM events WHERE id=%s` (app.py line 300). -/
def deleteEvent (db : DB) (eid : Nat) : DB :=
  { db with events := db.events.filter (fun e => e.id != eid) }

/-- Embeds `INSERT INTO reservations (event_id, user_id, name, people,
email) VALUES (?,?,?,?,?)` — the booking form submit (app.py line 468); `status`
takes its schema default `active`. -/
def insertReservation (db : DB) (event_id : Nat) (user_id : Option Nat)
    (name : String) (people : Nat) (email : String) : DB :=
  { db with
    reservations := db.reservations ++
      [⟨db.nextResId, event_id, user_id, name, people, email, "active"⟩],
    nextResId := db.nextResId + 1 }

/-- Embeds `SELECT date, title, image_path FROM events` (app.py line 403),
the calendar read. -/
def selectEventsCal (db : DB) : List (String × String × String) :=
  db.events.map (fun e => (e.date, e.title, e.image_path))

/-- Embeds `SELECT r.id, e.date, e.title, r.name, r.people FROM
reservations r JOIN events e ON r.event_id = e.id` (app.py line 481).  The inner join is
the bag of matching (reservation, event) pairs; the `ORDER BY e.date
DESC` clause only permutes that bag and is not modelled since the claims
about this read are order-independent. -/
def adminJoinRows (rs : List ResRow) (es : List EventRow) :
    List (Nat × String × String × String × Nat) :=
  rs.flatMap (fun r =>
    (es.filter (fun e => e.id == r.event_id)).map
      (fun e => (r.id, e.date, e.title, r.name, r.people)))

/-- The admin reservations view reads the join over the current state. -/
def adminJoin (db : DB) : List (Nat × String × String × String × Nat) :=
  adminJoinRows db.reservations db.events

/-- The mutating statements the app issues through `run_query` with
`commit=True` against the events/reservations tables. -/
inductive MutOp where
  | insEvent (date title description open_time start_time price location image_path : String)
  | delEvent (eid : Nat)
  | insRes (event_id : Nat) (user_id : Option Nat) (name : String) (people : Nat) (email : String)
deriving Repr, DecidableEq

def applyMut (db : DB) : MutOp → DB
  | .insEvent d t ds op stt pr loc img => insertEvent db d t ds op stt pr loc img
  | .delEvent eid => deleteEvent db eid
  | .insRes eid uid nm p em => insertReservation db eid uid nm p em

def applyMuts (db : DB) (ops : List MutOp) : DB :=
  ops.foldl applyMut db

/-! ### Calendar grid (app.py lines 401-431)

`pycal.Calendar(0).monthdayscalendar(year, month)` — CPython's
`calendar` module with `firstweekday = 0` (Monday).  The algorithm:
`monthrange` yields the Monday-based weekday of the 1st (via
`datetime.date(y, m, 1).weekday()`, proleptic Gregorian) and the month
length; `itermonthdays` emits `(day1 - firstweekday) % 7` zeros, then
`1..ndays`, then zeros up to a multiple of 7; `monthdayscalendar` chunks
the stream into weeks of seven. -/

/-- Embeds `calendar.isleap(y)`: `y % 4 == 0 and (y % 100 != 0 or y % 400 == 0)`. -/
def isleap (y : Nat) : Bool :=
  y % 4 == 0 && (y % 100 != 0 || y % 400 == 0)

/-- Embeds `calendar.mdays` — month lengths for a non-leap year, 1-indexed. -/
def mdays : List Nat := [0, 31, 28, 31, 30, 31, 30, 31, 31, 30, 31, 30, 31]

/-- Month length: `mdays[month] + (month == FEBRUARY and isleap(year))`
(from `calendar.monthrange`). -/
def monthlen (y m : Nat) : Nat :=
  mdays.getD m 0 + (if m == 2 && isleap y then 1 else 0)

/-- Embeds `datetime._DAYS_BEFORE_MONTH`, 1-indexed cumulative month lengths. -/
def daysBeforeMonthTable : List Nat :=
  [0, 0, 31, 59, 90, 120, 151, 181, 212, 243, 273, 304, 334]

/-- Embeds `datetime._days_before_month(y, m)`. -/
def daysBeforeMonth (y m : Nat) : Nat :=
  daysBeforeMonthTable.getD m 0 + (if 2 < m && isleap y then 1 else 0)

/-- Embeds `datetime._days_before_year(y) = (y-1)*365 + (y-1)//4 - (y-1)//100 +
(y-1)//400` (proleptic Gregorian day count before year `y`). -/
def daysBeforeYear (y : Nat) : Nat :=
  (y - 1) * 365 + (y - 1) / 4 - (y - 1) / 100 + (y - 1) / 400

/-- Embeds `calendar.weekday(y, m, 1)` = `date(y, m, 1).weekday()` =
`(toordinal + 6) % 7`, Monday = 0. -/
def firstWeekday (y m : Nat) : Nat :=
  (daysBeforeYear y + daysBeforeMonth y m + 1 + 6) % 7

/-- The flat day stream of `Calendar(0).itermonthdays(y, m)`:
leading zeros, the days `1..ndays`, trailing zeros to a week boundary.
With `firstweekday = 0`, `days_before = day1 % 7` and
`days_after = (- day1 - ndays) % 7` (Python modulo, non-negative). -/
def itermonthdays (y m : Nat) : List Nat :=
  let day1 := firstWeekday y m
  let ndays := monthlen y m
  List.replicate (day1 % 7) 0 ++
    (List.range ndays).map (· + 1) ++
    List.replicate ((7 - (day1 % 7 + ndays) % 7) % 7) 0

/-- Chunk a list into runs of seven (`[days[i:i+7] for i in range(0, len(days), 7)]`). -/
def chunk7 (l : List Nat) : List (List Nat) :=
  if l = [] then [] else l.take 7 :: chunk7 (l.drop 7)
termination_by l.length
decreasing_by
  simp only [List.length_drop]
  rename_i h
  have : 0 < l.length := List.length_pos.mpr h
  omega

/-- Embeds `Calendar(0).monthdayscalendar(y, m)`: the Monday-first week grid. -/
def monthdayscalendar (y m : Nat) : List (List Nat) :=
  chunk7 (itermonthdays y m)

/-! ### Calendar date-keyed event map (app.py line 404)

`live_data = { (r[0] ...): r for r in rows }` — a dict comprehension over
the rows of `SELECT date, title, image_path FROM events`, keyed by date.
Later rows overwrite earlier ones with the same key, so lookup returns
the last row bearing the date.  A Python dict is modelled as a function
from keys to optional rows, built by in-order insertion. -/

/-- One row of the calendar events query. -/
structure CalRow where
  date : String
  title : String
  image_path : String
deriving Repr, DecidableEq

/-- Dict insertion: the new binding shadows any earlier one for the key. -/
def dictInsert (m : String → Option CalRow) (r : CalRow) : String → Option CalRow :=
  fun d => if d = r.date then some r else m d

/-- The `live_data` dict comprehension, processing rows in query order. -/
def live_data (rows : List CalRow) : String → Option CalRow :=
  rows.foldl dictInsert (fun _ => none)

/-! ### Session state transitions -/

/-- The static owner passphrase (app.py line 310). -/
def ownerPass : String := "owner123"

/-- The session actions that can touch `st.session_state.is_logged_in`:
the Admin Login button (only rendered when the flag is false, app.py
lines 306-310), the owner logout button (app.py lines 248-250), and every
other interaction, none of which writes the flag. -/
inductive SessionAction where
  | adminLoginAttempt (opw : String)
  | ownerLogout
  | other
deriving Repr, DecidableEq

/-- One step of the owner-mode flag. -/
def stepOwner (s : Bool) : SessionAction → Bool
  | .adminLoginAttempt opw => if s then s else (if opw = ownerPass then true else s)
  | .ownerLogout => false
  | .other => s

def stepsOwner (s : Bool) (acts : List SessionAction) : Bool :=
  acts.foldl stepOwner s

/-- Embeds the `◀ 前月` button (app.py lines 390-393): decrement the month, rolling
over from 1 to 12 with the year decremented.  Result is (year, month). -/
def prevMonth (y m : Int) : Int × Int :=
  let m2 := m - 1
  if m2 = 0 then (y - 1, 12) else (y, m2)

/-- Embeds the `次月 ▶` button (app.py lines 396-399): increment the month, rolling
over from 12 to 1 with the year incremented.  Result is (year, month). -/
def nextMonth (y m : Int) : Int × Int :=
  let m2 := m + 1
  if m2 = 13 then (y + 1, 1) else (y, m2)

/-! ### Helper lemmas: placeholder translation -/

theorem hasPS_cons_of_ne (a : Char) (l : List Char) (ha : a ≠ '%') :
    hasPS (a :: l) = hasPS l := by
  cases l with
  | nil => simp [hasPS]
  | cons b t => simp [hasPS, ha]

theorem replacePSwithQ_cons_shape (c : Char) (l : List Char) :
    (∃ t, replacePSwithQ (c :: l) = '?' :: t) ∨ (∃ t, replacePSwithQ (c :: l) = c :: t) := by
  cases l with
  | nil => right; exact ⟨[], rfl⟩
  | cons b t =>
    by_cases h1 : c = '%'
    · by_cases h2 : b = 's'
      · subst h1; subst h2
        exact Or.inl ⟨replacePSwithQ t, rfl⟩
      · right
        refine ⟨replacePSwithQ (b :: t), ?_⟩
        simp [replacePSwithQ, h1, h2]
    · right
      refine ⟨replacePSwithQ (b :: t), ?_⟩
      simp [replacePSwithQ, h1]

theorem hasPS_replace_aux :
    ∀ (n : Nat) (l : List Char), l.length ≤ n → hasPS (replacePSwithQ l) = false := by
  intro n
  induction n with
  | zero =>
    intro l hl
    have hnil : l = [] := List.eq_nil_of_length_eq_zero (Nat.le_zero.mp hl)
    subst hnil; rfl
  | succ n ih =>
    intro l hl
    match l with
    | [] => rfl
    | [c] => rfl
    | c1 :: c2 :: rest =>
      simp only [List.length_cons] at hl
      by_cases h1 : c1 = '%'
      · by_cases h2 : c2 = 's'
        · subst h1; subst h2
          have heq : replacePSwithQ ('%' :: 's' :: rest) = '?' :: replacePSwithQ rest := rfl
          rw [heq, hasPS_cons_of_ne _ _ (by decide)]
          exact ih rest (by omega)
        · subst h1
          have heq : replacePSwithQ ('%' :: c2 :: rest) = '%' :: replacePSwithQ (c2 :: rest) := by
            simp [replacePSwithQ, h2]
          rw [heq]
          have hrec : hasPS (replacePSwithQ (c2 :: rest)) = false := ih _ (by simp; omega)
          rcases replacePSwithQ_cons_shape c2 rest with ⟨t, ht⟩ | ⟨t, ht⟩
          · rw [ht] at hrec ⊢
            simp [hasPS, hrec]
          · rw [ht] at hrec ⊢
            simp [hasPS, h2, hrec]
      · have heq : replacePSwithQ (c1 :: c2 :: rest) = c1 :: replacePSwithQ (c2 :: rest) := by
          simp [replacePSwithQ, h1]
        rw [heq, hasPS_cons_of_ne _ _ h1]
        exact ih _ (by simp; omega)

theorem not_qmark_mem_replaceQwithPS (l : List Char) : '?' ∉ replaceQwithPS l := by
  induction l with
  | nil => simp [replaceQwithPS]
  | cons c rest ih =>
    by_cases h : c = '?'
    · simp [replaceQwithPS, h, ih]
    · simp [replaceQwithPS, h, ih]
      exact fun he => h he.symm

/-! ### Claim theorems: data access layer -/

/-- C3: any exception raised while executing a statement is caught inside
`run_query`, a user-visible `st.error` notice is emitted, and `run_query`
returns the empty result list `[]` instead of propagating, for every
backend, statement and commit flag. -/
theorem run_query_catches_errors
    (useExt : Bool) (exec : List Char → Except String (List Row))
    (q : List Char) (commit : Bool) (e : String)
    (herr : exec (translateQuery useExt q) = .error e) :
    run_query useExt exec q commit =
      { retval := some [], errorNotice := some ("DBエラーだぜ: " ++ e), committed := false } := by
  simp [run_query, herr]

theorem run_query_catches_errors_witness :
    (fun (_ : List Char) => (Except.error "no such table: events" : Except String (List Row)))
        (translateQuery false "SELECT value FROM site_info WHERE key=?".data) =
      Except.error "no such table: events" ∧
    run_query false (fun _ => Except.error "no such table: events")
        "SELECT value FROM site_info WHERE key=?".data false =
      { retval := some [], errorNotice := some ("DBエラーだぜ: " ++ "no such table: events"),
        committed := false } :=
  ⟨rfl, run_query_catches_errors false _ _ false "no such table: events" rfl⟩

/-- C6: `run_query` rewrites every `%s` to `?` in SQLite mode and every
`?` to `%s` in PostgreSQL mode, so the executed statement contains only
the active backend's placeholder style; when execution succeeds, a
mutating call commits and returns no rows, and a read returns the
backend's row sequence. -/
theorem run_query_translates_placeholders
    (useExt : Bool) (exec : List Char → Except String (List Row))
    (q : List Char) (rows : List Row)
    (hok : exec (translateQuery useExt q) = .ok rows) :
    hasPS (translateQuery false q) = false ∧
    '?' ∉ translateQuery true q ∧
    run_query useExt exec q true = { retval := none, errorNotice := none, committed := true } ∧
    run_query useExt exec q false =
      { retval := some rows, errorNotice := none, committed := false } := by
  refine ⟨?_, ?_, ?_, ?_⟩
  · simpa [translateQuery] using hasPS_replace_aux q.length q le_rfl
  · simpa [translateQuery] using not_qmark_mem_replaceQwithPS q
  · simp [run_query, hok]
  · simp [run_query, hok]

theorem run_query_translates_placeholders_witness :
    (fun (_ : List Char) => (Except.ok [] : Except String (List Row)))
        (translateQuery false "SELECT * FROM events WHERE date=%s".data) =
      Except.ok [] ∧
    (hasPS (translateQuery false "SELECT * FROM events WHERE date=%s".data) = false ∧
     '?' ∉ translateQuery true "SELECT * FROM events WHERE date=%s".data ∧
     run_query false (fun _ => Except.ok []) "SELECT * FROM events WHERE date=%s".data true =
       { retval := none, errorNotice := none, committed := true } ∧
     run_query false (fun _ => Except.ok []) "SELECT * FROM events WHERE date=%s".data false =
       { retval := some [], errorNotice := none, committed := false }) :=
  ⟨rfl, run_query_translates_placeholders false _ _ [] rfl⟩

/-! ### Claim theorems: reservation booking -/

/-- A one-event database used to exercise the booking form: event 1 on
2026-05-05, no reservations yet. -/
def sampleDB : DB :=
  ⟨[⟨1, "2026-05-05", "Test Show", "", "18:30", "19:00", "¥2,500 + 1D", "Shibuya", ""⟩], [], 2, 1⟩

/-- C2: two booking submissions with the same event, name and email
(party sizes 2 and 3) append two separate reservation rows whose party
sizes sum to 5; the pre-existing rows are left untouched and the count of
rows for the (event, email) pair grows by exactly two. -/
theorem always_insert_two_rows (db : DB) (eid : Nat) (uid1 uid2 : Option Nat) (nm em : String) :
    (insertReservation (insertReservation db eid uid1 nm 2 em) eid uid2 nm 3 em).reservations =
      db.reservations ++
        [⟨db.nextResId, eid, uid1, nm, 2, em, "active"⟩,
         ⟨db.nextResId + 1, eid, uid2, nm, 3, em, "active"⟩] ∧
    (⟨db.nextResId, eid, uid1, nm, 2, em, "active"⟩ : ResRow).people +
      (⟨db.nextResId + 1, eid, uid2, nm, 3, em, "active"⟩ : ResRow).people = 5 ∧
    ((insertReservation (insertReservation db eid uid1 nm 2 em) eid uid2 nm 3 em).reservations.filter
        (fun r => r.event_id == eid && r.email == em)).length =
      (db.reservations.filter (fun r => r.event_id == eid && r.email == em)).length + 2 := by
  refine ⟨?_, rfl, ?_⟩
  · simp [insertReservation]
  · simp [insertReservation, List.filter_append]

/-- C1 counterexample: on the code, booking event 1 twice with the same
non-empty email `a@x.com` (party sizes 2 then 3) leaves two reservation
rows for the (event 1, a@x.com) pair, not the single merged row the claim
predicts. -/
theorem merge_rule_counterexample :
    ¬ (((insertReservation (insertReservation sampleDB 1 none "A" 2 "a@x.com")
          1 none "A" 3 "a@x.com").reservations.filter
            (fun r => r.event_id == 1 && r.email == "a@x.com")).length = 1) := by
  decide

/-- C1 (amended): every booking submission — even one whose non-empty
email matches an existing reservation for the same event — inserts a new
reservation row; the existing reservation is kept unchanged (its party
size is not incremented) and the row count for the (event, email) pair
grows by one. -/
theorem booking_always_inserts
    (db : DB) (eid : Nat) (uid : Option Nat) (nm : String) (p : Nat) (em : String)
    (r0 : ResRow) (h0 : r0 ∈ db.reservations) (hev : r0.event_id = eid)
    (hem : r0.email = em) (hne : em ≠ "") :
    (insertReservation db eid uid nm p em).reservations =
      db.reservations ++ [⟨db.nextResId, eid, uid, nm, p, em, "active"⟩] ∧
    r0 ∈ (insertReservation db eid uid nm p em).reservations ∧
    ((insertReservation db eid uid nm p em).reservations.filter
        (fun r => r.event_id == eid && r.email == em)).length =
      (db.reservations.filter (fun r => r.event_id == eid && r.email == em)).length + 1 := by
  refine ⟨rfl, ?_, ?_⟩
  · exact List.mem_append_left _ h0
  · simp [insertReservation, List.filter_append, hev, hem]

theorem booking_always_inserts_witness :
    (⟨1, 1, none, "A", 2, "a@x.com", "active"⟩ : ResRow) ∈
        (insertReservation sampleDB 1 none "A" 2 "a@x.com").reservations ∧
    (⟨1, 1, none, "A", 2, "a@x.com", "active"⟩ : ResRow).event_id = 1 ∧
    (⟨1, 1, none, "A", 2, "a@x.com", "active"⟩ : ResRow).email = "a@x.com" ∧
    "a@x.com" ≠ "" ∧
    ((insertReservation (insertReservation sampleDB 1 none "A" 2 "a@x.com")
        1 none "A" 3 "a@x.com").reservations =
      (insertReservation sampleDB 1 none "A" 2 "a@x.com").reservations ++
        [⟨2, 1, none, "A", 3, "a@x.com", "active"⟩] ∧
     (⟨1, 1, none, "A", 2, "a@x.com", "active"⟩ : ResRow) ∈
       (insertReservation (insertReservation sampleDB 1 none "A" 2 "a@x.com")
         1 none "A" 3 "a@x.com").reservations ∧
     ((insertReservation (insertReservation sampleDB 1 none "A" 2 "a@x.com")
         1 none "A" 3 "a@x.com").reservations.filter
           (fun r => r.event_id == 1 && r.email == "a@x.com")).length =
       ((insertReservation sampleDB 1 none "A" 2 "a@x.com").reservations.filter
           (fun r => r.event_id == 1 && r.email == "a@x.com")).length + 1) :=
  ⟨by decide, rfl, rfl, by decide,
   booking_always_inserts (insertReservation sampleDB 1 none "A" 2 "a@x.com")
     1 none "A" 3 "a@x.com" _ (by decide) rfl rfl (by decide)⟩

/-! ### Claim theorems: reads against committed state -/

/-- C5: every read through `run_query` executes against the backend —
there is no cache layer — so after inserting an event dated 2026-05-05
titled Test Show the calendar events read includes that (date, title)
row, and after any committed mutation sequence the read is exactly the
projection of the committed events table. -/
theorem read_after_write_fresh (db : DB) (ops : List MutOp)
    (ds op stt pr loc img : String) :
    ("2026-05-05", "Test Show", img) ∈
      selectEventsCal (insertEvent db "2026-05-05" "Test Show" ds op stt pr loc img) ∧
    (∀ t, t ∈ selectEventsCal (applyMuts db ops) ↔
      ∃ e ∈ (applyMuts db ops).events, (e.date, e.title, e.image_path) = t) := by
  constructor
  · simp [insertEvent, selectEventsCal]
  · intro t
    simp [selectEventsCal, List.mem_map]

/-- C7: after deleting an event, the admin reservations/events join is
the same as the join taken over only the reservations that do not
reference the deleted event — dangling reservations are filtered out of
the result rather than causing an error — and every produced row comes
from a reservation whose event still exists. -/
theorem dangling_reservations_tolerated (db : DB) (k : Nat) :
    adminJoin (deleteEvent db k) =
      adminJoinRows ((deleteEvent db k).reservations.filter (fun r => r.event_id != k))
        (deleteEvent db k).events ∧
    ∀ row ∈ adminJoin (deleteEvent db k),
      ∃ r ∈ (deleteEvent db k).reservations,
        ∃ e ∈ (deleteEvent db k).events,
          e.id = r.event_id ∧ row = (r.id, e.date, e.title, r.name, r.people) := by
  constructor
  · have hes : ∀ e ∈ (deleteEvent db k).events, e.id ≠ k := by
      intro e he
      simp only [deleteEvent, List.mem_filter, bne_iff_ne, ne_eq] at he
      exact he.2
    have main : ∀ (rs : List ResRow),
        adminJoinRows rs (deleteEvent db k).events =
          adminJoinRows (rs.filter (fun r => r.event_id != k)) (deleteEvent db k).events := by
      intro rs
      induction rs with
      | nil => rfl
      | cons r rest ih =>
        by_cases h : r.event_id = k
        · have hnil : (deleteEvent db k).events.filter (fun e => e.id == k) = [] := by
            rw [List.filter_eq_nil_iff]
            intro e he
            simp only [beq_iff_eq]
            exact hes e he
          simp only [adminJoinRows, List.flatMap_cons, List.filter_cons, h, bne_self_eq_false,
            Bool.false_eq_true, if_false, hnil, List.map_nil, List.nil_append]
          exact ih
        · simp only [adminJoinRows, List.flatMap_cons, List.filter_cons,
            bne_iff_ne, ne_eq, h, not_false_eq_true, if_true]
          simp only [adminJoinRows] at ih
          rw [ih]
    exact main db.reservations
  · intro row hrow
    simp only [adminJoin, adminJoinRows, List.mem_flatMap, List.mem_map, List.mem_filter,
      beq_iff_eq] at hrow
    obtain ⟨r, hr, e, ⟨he, heid⟩, hrow⟩ := hrow
    exact ⟨r, hr, e, he, heid, hrow.symm⟩

/-! ### Claim theorems: session state -/

/-- C8: from non-owner mode, submitting a passphrase flips
`is_logged_in` to true exactly when it equals the static passphrase
`owner123`; any other string leaves the flag false; and once in owner
mode, every sequence of session actions without an explicit owner logout
keeps owner mode. -/
theorem owner_mode_gate (opw : String) (acts : List SessionAction)
    (hno : ∀ a ∈ acts, a ≠ SessionAction.ownerLogout) :
    (stepOwner false (SessionAction.adminLoginAttempt opw) = true ↔ opw = ownerPass) ∧
    (opw ≠ ownerPass → stepOwner false (SessionAction.adminLoginAttempt opw) = false) ∧
    stepsOwner true acts = true := by
  refine ⟨?_, ?_, ?_⟩
  · constructor
    · intro h
      by_contra hne
      simp [stepOwner, hne] at h
    · intro h
      simp [stepOwner, h]
  · intro h
    simp [stepOwner, h]
  · clear opw
    induction acts with
    | nil => rfl
    | cons a rest ih =>
      have ha : a ≠ SessionAction.ownerLogout := hno a (List.mem_cons_self a rest)
      have hstep : stepOwner true a = true := by
        cases a with
        | adminLoginAttempt opw => rfl
        | ownerLogout => exact absurd rfl ha
        | other => rfl
      show stepsOwner (stepOwner true a) rest = true
      rw [hstep]
      exact ih (fun b hb => hno b (List.mem_cons_of_mem a hb))

theorem owner_mode_gate_witness :
    (∀ a ∈ [SessionAction.other, SessionAction.adminLoginAttempt "wrong-pass"],
      a ≠ SessionAction.ownerLogout) ∧
    ((stepOwner false (SessionAction.adminLoginAttempt "owner123") = true ↔
        "owner123" = ownerPass) ∧
     ("owner123" ≠ ownerPass →
        stepOwner false (SessionAction.adminLoginAttempt "owner123") = false) ∧
     stepsOwner true [SessionAction.other, SessionAction.adminLoginAttempt "wrong-pass"] = true) :=
  ⟨by decide, owner_mode_gate "owner123"
    [SessionAction.other, SessionAction.adminLoginAttempt "wrong-pass"] (by decide)⟩

/-! ### Claim theorems: calendar event map -/

theorem live_data_foldl_eq (rows : List CalRow) (acc : String → Option CalRow) (d : String) :
    rows.foldl dictInsert acc d =
      match (rows.filter (fun r => r.date == d)).getLast? with
      | some r => some r
      | none => acc d := by
  induction rows using List.reverseRecOn generalizing acc with
  | nil => rfl
  | append_singleton rows r ih =>
    rw [List.foldl_append, List.foldl_cons, List.foldl_nil, List.filter_append]
    by_cases h : r.date = d
    · simp only [dictInsert, List.filter_cons, List.filter_nil, h, beq_self_eq_true, if_true,
        if_pos rfl]
      rw [List.getLast?_concat]
    · have hb : (r.date == d) = false := beq_eq_false_iff_ne.mpr h
      simp only [dictInsert, List.filter_cons, List.filter_nil, hb, Bool.false_eq_true, if_false,
        List.append_nil]
      rw [if_neg (fun he => h he.symm)]
      exact ih acc

/-- C9: the date-keyed `live_data` dict maps every date to at most one
event summary, namely the last row bearing that date in the order the
events query returned the rows; any summary it yields is a row of the
query result with the looked-up date. -/
theorem live_data_last_row_wins (rows : List CalRow) (d : String) :
    live_data rows d = (rows.filter (fun r => r.date == d)).getLast? ∧
    (∀ r, live_data rows d = some r → r.date = d ∧ r ∈ rows) := by
  have hmain : live_data rows d = (rows.filter (fun r => r.date == d)).getLast? := by
    rw [live_data, live_data_foldl_eq]
    cases (rows.filter (fun r => r.date == d)).getLast? with
    | none => rfl
    | some r => rfl
  refine ⟨hmain, ?_⟩
  intro r hr
  rw [hmain] at hr
  obtain ⟨hne, heq⟩ := List.mem_getLast?_eq_getLast hr
  have hmem : r ∈ rows.filter (fun r => r.date == d) := by
    rw [heq]
    exact List.getLast_mem hne
  have := List.mem_filter.mp hmem
  exact ⟨beq_iff_eq.mp this.2, this.1⟩

/-! ### Claim theorems: month navigation -/

/-- C10: starting from a month in 1..12, the previous/next month buttons
keep the month in 1..12: previous from month 1 gives (year-1, 12), next
from month 12 gives (year+1, 1), and otherwise the year is unchanged and
the month moves by exactly one. -/
theorem month_navigation_in_range (y m : Int) (h1 : 1 ≤ m) (h2 : m ≤ 12) :
    (1 ≤ (prevMonth y m).2 ∧ (prevMonth y m).2 ≤ 12) ∧
    (1 ≤ (nextMonth y m).2 ∧ (nextMonth y m).2 ≤ 12) ∧
    (m = 1 → prevMonth y m = (y - 1, 12)) ∧
    (m ≠ 1 → prevMonth y m = (y, m - 1)) ∧
    (m = 12 → nextMonth y m = (y + 1, 1)) ∧
    (m ≠ 12 → nextMonth y m = (y, m + 1)) := by
  have hprev1 : m = 1 → prevMonth y m = (y - 1, 12) := by
    intro hm; subst hm
    simp only [prevMonth]
    rw [if_pos (by decide)]
  have hprevn : m ≠ 1 → prevMonth y m = (y, m - 1) := by
    intro hm
    simp only [prevMonth]
    rw [if_neg (by omega)]
  have hnext12 : m = 12 → nextMonth y m = (y + 1, 1) := by
    intro hm; subst hm
    simp only [nextMonth]
    rw [if_pos (by decide)]
  have hnextn : m ≠ 12 → nextMonth y m = (y, m + 1) := by
    intro hm
    simp only [nextMonth]
    rw [if_neg (by omega)]
  refine ⟨?_, ?_, hprev1, hprevn, hnext12, hnextn⟩
  · by_cases hm : m = 1
    · rw [hprev1 hm]
      exact ⟨show (1 : Int) ≤ 12 by decide, show (12 : Int) ≤ 12 by decide⟩
    · rw [hprevn hm]
      exact ⟨show (1 : Int) ≤ m - 1 by omega, show m - 1 ≤ 12 by omega⟩
  · by_cases hm : m = 12
    · rw [hnext12 hm]
      exact ⟨show (1 : Int) ≤ 1 by decide, show (1 : Int) ≤ 12 by decide⟩
    · rw [hnextn hm]
      exact ⟨show (1 : Int) ≤ m + 1 by omega, show m + 1 ≤ 12 by omega⟩

theorem month_navigation_in_range_witness :
    (1 : Int) ≤ 5 ∧ (5 : Int) ≤ 12 ∧
    ((1 ≤ (prevMonth 2026 5).2 ∧ (prevMonth 2026 5).2 ≤ 12) ∧
     (1 ≤ (nextMonth 2026 5).2 ∧ (nextMonth 2026 5).2 ≤ 12) ∧
     ((5 : Int) = 1 → prevMonth 2026 5 = (2025, 12)) ∧
     ((5 : Int) ≠ 1 → prevMonth 2026 5 = (2026, 4)) ∧
     ((5 : Int) = 12 → nextMonth 2026 5 = (2027, 1)) ∧
     ((5 : Int) ≠ 12 → nextMonth 2026 5 = (2026, 6))) :=
  ⟨by decide, by decide, month_navigation_in_range 2026 5 (by decide) (by decide)⟩

/-! ### Helper lemmas: calendar grid -/

theorem chunk7_nil : chunk7 [] = [] := by
  rw [chunk7]
  simp

theorem chunk7_flatten_aux :
    ∀ (n : Nat) (l : List Nat), l.length ≤ n → (chunk7 l).flatten = l := by
  intro n
  induction n with
  | zero =>
    intro l hl
    have hnil : l = [] := List.eq_nil_of_length_eq_zero (Nat.le_zero.mp hl)
    subst hnil
    rw [chunk7_nil]
    rfl
  | succ n ih =>
    intro l hl
    by_cases h : l = []
    · subst h
      rw [chunk7_nil]
      rfl
    · rw [chunk7, if_neg h, List.flatten_cons,
        ih (l.drop 7) (by simp only [List.length_drop]; omega), List.take_append_drop]

theorem chunk7_mem_length_aux :
    ∀ (n : Nat) (l : List Nat), l.length ≤ n → 7 ∣ l.length →
      ∀ w ∈ chunk7 l, w.length = 7 := by
  intro n
  induction n with
  | zero =>
    intro l hl _ w hw
    have hnil : l = [] := List.eq_nil_of_length_eq_zero (Nat.le_zero.mp hl)
    subst hnil
    simp [chunk7] at hw
  | succ n ih =>
    intro l hl hdvd w hw
    by_cases h : l = []
    · subst h; simp [chunk7] at hw
    · rw [chunk7, if_neg h] at hw
      have hpos : l.length ≠ 0 := fun h0 => h (List.eq_nil_of_length_eq_zero h0)
      have hlen : 7 ≤ l.length := by
        rcases hdvd with ⟨c, hc⟩
        omega
      rcases List.mem_cons.mp hw with hw | hw
      · subst hw
        rw [List.length_take]
        omega
      · refine ih (l.drop 7) ?_ ?_ w hw
        · simp only [List.length_drop]; omega
        · simp only [List.length_drop]; omega

theorem itermonthdays_length_dvd (y m : Nat) : 7 ∣ (itermonthdays y m).length := by
  simp only [itermonthdays, List.length_append, List.length_replicate, List.length_map,
    List.length_range]
  omega

theorem itermonthdays_mem (y m x : Nat) (hx : x ∈ itermonthdays y m) :
    x = 0 ∨ (1 ≤ x ∧ x ≤ monthlen y m) := by
  simp only [itermonthdays, List.mem_append, List.mem_replicate, List.mem_map,
    List.mem_range] at hx
  rcases hx with (hx | hx) | hx
  · exact Or.inl hx.2
  · obtain ⟨i, hi, rfl⟩ := hx
    right; omega
  · exact Or.inl hx.2

theorem itermonthdays_count (y m d : Nat) (h1 : 1 ≤ d) (h2 : d ≤ monthlen y m) :
    (itermonthdays y m).count d = 1 := by
  simp only [itermonthdays]
  rw [List.count_append, List.count_append]
  have hrep : ∀ n : Nat, (List.replicate n (0 : Nat)).count d = 0 := fun n =>
    List.count_eq_zero_of_not_mem
      (fun hm => absurd (List.eq_of_mem_replicate hm) (by omega))
  have hmap : ((List.range (monthlen y m)).map (· + 1)).count d = 1 := by
    have hinj : Function.Injective (fun x : Nat => x + 1) := fun a b hab =>
      Nat.succ_injective hab
    have hd : d = (fun x : Nat => x + 1) (d - 1) := by
      show d = d - 1 + 1
      omega
    rw [hd, List.count_map_of_injective _ _ hinj]
    exact List.count_eq_one_of_mem (List.nodup_range _) (List.mem_range.mpr (by omega))
  rw [hrep, hrep, hmap]

theorem itermonthdays_get (y m d : Nat) (h1 : 1 ≤ d) (h2 : d ≤ monthlen y m) :
    (itermonthdays y m)[firstWeekday y m + (d - 1)]? = some d := by
  have h7 : firstWeekday y m < 7 := by
    simp only [firstWeekday]
    exact Nat.mod_lt _ (by decide)
  have hb : firstWeekday y m % 7 = firstWeekday y m := Nat.mod_eq_of_lt h7
  simp only [itermonthdays, hb]
  rw [List.append_assoc,
    List.getElem?_append_right (by simp only [List.length_replicate]; omega)]
  simp only [List.length_replicate, Nat.add_sub_cancel_left]
  rw [List.getElem?_append_left (by simp only [List.length_map, List.length_range]; omega)]
  rw [List.getElem?_map]
  simp only [List.getElem?_range (show d - 1 < monthlen y m by omega), Option.map_some]
  show some (d - 1 + 1) = some d
  congr 1
  omega

/-- C4: for every valid year and month, the Monday-first calendar grid
consists only of complete 7-cell week rows, every cell is blank (0) or a
day number of the month, every day 1..N appears exactly once, and day `d`
sits at flat offset `firstWeekday + (d-1)`, i.e. in the column matching
its Monday-based weekday. -/
theorem calendar_grid_complete (y m : Nat) (hy : 1 ≤ y) (hm1 : 1 ≤ m) (hm2 : m ≤ 12) :
    (∀ w ∈ monthdayscalendar y m, w.length = 7) ∧
    (∀ w ∈ monthdayscalendar y m, ∀ c ∈ w, c = 0 ∨ (1 ≤ c ∧ c ≤ monthlen y m)) ∧
    (∀ d, 1 ≤ d → d ≤ monthlen y m →
      (monthdayscalendar y m).flatten.count d = 1 ∧
      (monthdayscalendar y m).flatten[firstWeekday y m + (d - 1)]? = some d) := by
  have hflat : (monthdayscalendar y m).flatten = itermonthdays y m :=
    chunk7_flatten_aux (itermonthdays y m).length _ le_rfl
  refine ⟨?_, ?_, ?_⟩
  · exact fun w hw =>
      chunk7_mem_length_aux (itermonthdays y m).length _ le_rfl
        (itermonthdays_length_dvd y m) w hw
  · intro w hw c hc
    refine itermonthdays_mem y m c ?_
    rw [← hflat]
    exact List.mem_flatten_of_mem hw hc
  · intro d hd1 hd2
    rw [hflat]
    exact ⟨itermonthdays_count y m d hd1 hd2, itermonthdays_get y m d hd1 hd2⟩

theorem calendar_grid_complete_witness :
    1 ≤ 2026 ∧ 1 ≤ 5 ∧ 5 ≤ 12 ∧
    ((∀ w ∈ monthdayscalendar 2026 5, w.length = 7) ∧
     (∀ w ∈ monthdayscalendar 2026 5, ∀ c ∈ w, c = 0 ∨ (1 ≤ c ∧ c ≤ monthlen 2026 5)) ∧
     (∀ d, 1 ≤ d → d ≤ monthlen 2026 5 →
       (monthdayscalendar 2026 5).flatten.count d = 1 ∧
       (monthdayscalendar 2026 5).flatten[firstWeekday 2026 5 + (d - 1)]? = some d)) :=
  ⟨by decide, by decide, by decide,
   calendar_grid_complete 2026 5 (by decide) (by decide) (by decide)⟩

end OneOnceOver
